import Mathlib

/-!
Verification of the Ultimate Tic-Tac-Toe perft engine (`src/main.rs`).

The Rust program is shallowly embedded: the `Bitboard` struct becomes a Lean
structure over `Nat` (Rust `usize` is 64-bit; wherever two's-complement
behaviour matters, such as the `!square` bit complement in `undo_move`, we
mask explicitly at 2^64), `&mut self` methods become functions returning the
updated state, and the recursive enumerator `move_gen` is embedded as a pair
of mutually recursive functions mirroring the `iter().map(...).sum()` loop
with its in-place make/undo threading.
-/

set_option maxRecDepth 200000
set_option maxHeartbeats 4000000

namespace UTTT

/-- `WHITE` (player X), index 0 — from `pub const WHITE`. -/
def WHITE : Nat := 0

/-- `BLACK` (player O), index 1 — from `pub const BLACK`. -/
def BLACK : Nat := 1

/-- `pub const FIELD: usize = 0x1FF << 16`. -/
def FIELD : Nat := 0x1FF <<< 16

/-- `pub const SQUARE: usize = 0xFFFF`. -/
def SQUARE : Nat := 0xFFFF

/-- `pub const ALL_FIELDS_LEGAL: usize = 0x1 << 25`. -/
def ALL_FIELDS_LEGAL : Nat := 0x1 <<< 25

/-- `pub const DIAGS: [usize; 2] = [0o421, 0o124]`. -/
def DIAGS : List Nat := [0o421, 0o124]

/-- `pub const ROWS: [usize; 3] = [0o700, 0o070, 0o007]`. -/
def ROWS : List Nat := [0o700, 0o070, 0o007]

/-- `pub const COLS: [usize; 3] = [0o111, 0o222, 0o444]`. -/
def COLS : List Nat := [0o111, 0o222, 0o444]

/-- `pub const ALL_FIELDS: usize = 0o777`. -/
def ALL_FIELDS : Nat := 0o777

/-- The `field!` macro from the source: `($val & FIELD) >> 16`. -/
def field_of (val : Nat) : Nat := (val &&& FIELD) >>> 16

/-- The `square!` macro from the source: `$val & SQUARE`. -/
def square_of (val : Nat) : Nat := val &&& SQUARE

/-- Fuel-driven base-2 logarithm used to embed
`to_index(no) = USIZE - no.leading_zeros()`, i.e. the index of the highest
set bit of `no` (for `0 < no < 2^64`).  The fuel of 64 matches the 64-bit
`usize` width; the fuel recursion makes the definition reduce by `decide`. -/
def log2_fuel : Nat → Nat → Nat
  | 0, _ => 0
  | fuel + 1, n => if n ≥ 2 then log2_fuel fuel (n / 2) + 1 else 0

/-- `pub fn to_index(no: usize) -> usize { (USIZE - no.leading_zeros()) as usize }`:
the position of the highest set bit (the source only ever applies it to
nonzero one-hot masks). -/
def to_index (no : Nat) : Nat := log2_fuel 64 no

/-- `pub fn is_tied(field: usize) -> bool { field == ALL_FIELDS }`. -/
def is_tied (field : Nat) : Bool := field == ALL_FIELDS

/-- `pub fn is_won(field: usize) -> bool`: the 8-line pattern test, written
exactly as the source's chain of `(field & PAT) == PAT` tests. -/
def is_won (field : Nat) : Bool :=
  (field &&& DIAGS.getD 0 0) == DIAGS.getD 0 0
    || (field &&& DIAGS.getD 1 0) == DIAGS.getD 1 0
    || (field &&& ROWS.getD 0 0) == ROWS.getD 0 0
    || (field &&& ROWS.getD 1 0) == ROWS.getD 1 0
    || (field &&& ROWS.getD 2 0) == ROWS.getD 2 0
    || (field &&& COLS.getD 0 0) == COLS.getD 0 0
    || (field &&& COLS.getD 1 0) == COLS.getD 1 0
    || (field &&& COLS.getD 2 0) == COLS.getD 2 0

/-- Fuel-driven population count; with fuel 64 this is `usize::count_ones`
for every value below `2^64`.  The fuel recursion makes it reduce by
`decide`. -/
def count_ones_aux : Nat → Nat → Nat
  | 0, _ => 0
  | _ + 1, 0 => 0
  | fuel + 1, n => n % 2 + count_ones_aux fuel (n / 2)

/-- `usize::count_ones` (64-bit population count). -/
def count_ones (n : Nat) : Nat := count_ones_aux 64 n

/-- The `Bitboard` struct.  `board : List (List Nat)` embeds
`board: [[usize; 9]; 2]` (outer index = player, inner index = sub-board). -/
structure Bitboard where
  valid_field : Nat
  board : List (List Nat)
  turn : Nat
  cached_meta_field : List Nat
  cached_meta_field_dirty : Bool
  cached_game_over : Bool
  cached_game_over_dirty : Bool
deriving DecidableEq, Repr

attribute [ext] Bitboard

/-- `impl Default for Bitboard`: the fixed initial state. -/
def Bitboard.default : Bitboard where
  valid_field := ALL_FIELDS
  board := [[0, 0, 0, 0, 0, 0, 0, 0, 0], [0, 0, 0, 0, 0, 0, 0, 0, 0]]
  turn := 0
  cached_meta_field := [0, 0]
  cached_game_over := false
  cached_meta_field_dirty := true
  cached_game_over_dirty := true

/-- Read `self.board[p][i]` (in-range for every state the program builds). -/
def Bitboard.bd (b : Bitboard) (p i : Nat) : Nat := (b.board.getD p []).getD i 0

/-- `fn taken(&self, pos: usize) -> bool`. -/
def Bitboard.taken (b : Bitboard) (pos : Nat) : Bool :=
  ((b.bd 0 (to_index (field_of pos))) ||| (b.bd 1 (to_index (field_of pos))))
      &&& square_of pos != 0

/-- `fn field_is_blocked(&self, field: usize) -> bool`. -/
def Bitboard.field_is_blocked (b : Bitboard) (field : Nat) : Bool :=
  let white_field := b.bd WHITE field
  let black_field := b.bd BLACK field
  is_won white_field || is_won black_field || is_tied (white_field ||| black_field)

/-- Write `self.board[p][i] |= square` (the first mutation in `make_move`). -/
def Bitboard.setBit (b : Bitboard) (p i square : Nat) : List (List Nat) :=
  b.board.set p ((b.board.getD p []).set i ((b.bd p i) ||| square))

/-- `pub fn make_move(&mut self, mov: usize)`.  Note the source sets the
occupancy bit first and only then evaluates `field_is_blocked` on the target
sub-board, and that `self.dirty()` marks both caches. -/
def Bitboard.make_move (b : Bitboard) (mov : Nat) : Bitboard :=
  let field := field_of mov
  let square := square_of mov
  let b1 : Bitboard := { b with board := b.setBit b.turn (to_index field) square }
  { b1 with
    valid_field :=
      if b1.field_is_blocked (to_index square) || is_won field then ALL_FIELDS else square
    turn := 1 - b1.turn
    cached_game_over_dirty := true
    cached_meta_field_dirty := true }

/-- `pub fn get_all_moves(&self) -> Vec<usize>`: the two nested `for` loops
with `push`, written as `flatMap`/`filterMap` over `List.range 9` (which
produces exactly the pushed elements in push order). -/
def Bitboard.get_all_moves (b : Bitboard) : List Nat :=
  (List.range 9).flatMap (fun i =>
    if (1 <<< i) &&& b.valid_field != 0 then
      (List.range 9).filterMap (fun s =>
        let mov := (1 <<< s) ||| ((1 <<< i) <<< 16)
        if !b.taken mov && !b.field_is_blocked i then
          some (mov ||| (if b.valid_field == 0o777 then ALL_FIELDS_LEGAL else 0))
        else
          none)
    else
      [])

/-- Write `self.board[p][i] &= !square` (64-bit complement of `square`). -/
def Bitboard.clearBit (b : Bitboard) (p i square : Nat) : List (List Nat) :=
  b.board.set p ((b.board.getD p []).set i ((b.bd p i) &&& ((2 ^ 64 - 1) ^^^ square)))

/-- `pub fn undo_move(&mut self, mov: usize)`. -/
def Bitboard.undo_move (b : Bitboard) (mov : Nat) : Bitboard :=
  let field := field_of mov
  let square := square_of mov
  { b with
    board := b.clearBit (1 - b.turn) (to_index field) square
    valid_field := if mov &&& ALL_FIELDS_LEGAL != 0 then ALL_FIELDS else field
    turn := 1 - b.turn
    cached_game_over_dirty := true
    cached_meta_field_dirty := true }

/-- The per-player meta-field word computed inside `get_meta_field`:
bit `8 - k` records `is_won(self.board[p][k])`. -/
def Bitboard.meta_word (b : Bitboard) (p : Nat) : Nat :=
  ((cond (is_won (b.bd p 0)) 1 0) <<< 8)
    ||| ((cond (is_won (b.bd p 1)) 1 0) <<< 7)
    ||| ((cond (is_won (b.bd p 2)) 1 0) <<< 6)
    ||| ((cond (is_won (b.bd p 3)) 1 0) <<< 5)
    ||| ((cond (is_won (b.bd p 4)) 1 0) <<< 4)
    ||| ((cond (is_won (b.bd p 5)) 1 0) <<< 3)
    ||| ((cond (is_won (b.bd p 6)) 1 0) <<< 2)
    ||| ((cond (is_won (b.bd p 7)) 1 0) <<< 1)
    ||| ((cond (is_won (b.bd p 8)) 1 0) <<< 0)

/-- `pub fn get_meta_field(&mut self) -> [usize; 2]`, returning the value
together with the updated receiver (the method caches its result). -/
def Bitboard.get_meta_field (b : Bitboard) : List Nat × Bitboard :=
  if !b.cached_meta_field_dirty then
    (b.cached_meta_field, b)
  else
    let field := [b.meta_word 0, b.meta_word 1]
    (field, { b with cached_meta_field := field, cached_meta_field_dirty := false })

/-- `pub fn game_tied(&self) -> bool`. -/
def Bitboard.game_tied (b : Bitboard) : Bool :=
  (List.range 9).all (fun i =>
    is_won (b.bd 0 i) || is_won (b.bd 1 i) || is_tied ((b.bd 0 i) ||| (b.bd 1 i)))

/-- `pub fn game_over(&mut self) -> bool`, returning the value together with
the updated receiver.  Mirrors the source exactly: the cached fast path, the
early `return false` when player 0 has fewer than 9 stones (which does not
touch the cache), and the cached recompute otherwise. -/
def Bitboard.game_over (b : Bitboard) : Bool × Bitboard :=
  if !b.cached_game_over_dirty then
    (b.cached_game_over, b)
  else
    let sum := ((List.range 9).map (fun i => count_ones (b.bd 0 i))).sum
    if sum < 9 then
      (false, b)
    else
      let mf := b.get_meta_field
      let ret := (is_won (mf.1.getD WHITE 0) || is_won (mf.1.getD BLACK 0)) || mf.2.game_tied
      (ret, { mf.2 with cached_game_over := ret, cached_game_over_dirty := false })

/-- The `moves.iter().map(|mov| { make_move; recurse; undo_move; ret }).sum()`
loop of `move_gen`, abstracted over the recursive call `f` (which `move_gen`
instantiates with itself at the next depth): returns the accumulated sum and
the threaded board that the loop's make/undo pairs mutate in place. -/
def move_gen_loop (f : Bitboard → Nat) : Bitboard → List Nat → Nat × Bitboard
  | b, [] => (0, b)
  | b, mov :: rest =>
    let b1 := b.make_move mov
    let ret := f b1
    let b2 := b1.undo_move mov
    let r := move_gen_loop f b2 rest
    (ret + r.1, r.2)

/-- `pub fn move_gen(mut board: Bitboard, depth: usize) -> usize`.  The board
is passed by value (`Bitboard` is `Copy`), so the recursive call operates on
a copy while `make_move`/`undo_move` mutate the caller's local board, which
is threaded through the sibling iteration by `move_gen_loop`. -/
def move_gen (board : Bitboard) (depth : Nat) : Nat :=
  let r := board.game_over
  if r.1 then 0
  else
    let moves := r.2.get_all_moves
    match depth with
    | 0 => moves.length
    | d + 1 => moves.length + (move_gen_loop (fun b1 => move_gen b1 d) r.2 moves).1

/-! ### Specification-side definitions

These render the spec's vocabulary independently of the implementation; the
claims relate them to the source functions above. -/

/-- The 8 win lines of a 3×3 grid as cell-index lists: 3 rows, 3 columns,
2 diagonals (cells numbered 0–8, bit `k` = cell `k`). -/
def spec_lines : List (List Nat) := [[0, 1, 2], [3, 4, 5], [6, 7, 8],
  [0, 3, 6], [1, 4, 7], [2, 5, 8], [0, 4, 8], [2, 4, 6]]

/-- The 9-bit mask of a cell-index list. -/
def line_mask (L : List Nat) : Nat := L.foldl (fun a c => a ||| (1 <<< c)) 0

/-- Spec vocabulary: sub-board `i` is decided — won by either player or
tied (all 9 cells of the sub-board occupied). -/
def sub_board_decided (b : Bitboard) (i : Nat) : Bool :=
  is_won (b.bd WHITE i) || is_won (b.bd BLACK i)
    || ((b.bd WHITE i ||| b.bd BLACK i) == ALL_FIELDS)

/-- Spec vocabulary: the 9-bit macro-board mask of the sub-boards player `p`
has won, in natural orientation (bit `i` = sub-board `i`). -/
def won_mask (b : Bitboard) (p : Nat) : Nat :=
  ((cond (is_won (b.bd p 0)) 1 0) <<< 0)
    ||| ((cond (is_won (b.bd p 1)) 1 0) <<< 1)
    ||| ((cond (is_won (b.bd p 2)) 1 0) <<< 2)
    ||| ((cond (is_won (b.bd p 3)) 1 0) <<< 3)
    ||| ((cond (is_won (b.bd p 4)) 1 0) <<< 4)
    ||| ((cond (is_won (b.bd p 5)) 1 0) <<< 5)
    ||| ((cond (is_won (b.bd p 6)) 1 0) <<< 6)
    ||| ((cond (is_won (b.bd p 7)) 1 0) <<< 7)
    ||| ((cond (is_won (b.bd p 8)) 1 0) <<< 8)

/-- Spec vocabulary: player `p` owns a winning line of sub-boards on the
macro board. -/
def meta_win (b : Bitboard) (p : Nat) : Prop := is_won (won_mask b p) = true

/-- Spec vocabulary: all 9 sub-boards are decided. -/
def all_decided (b : Bitboard) : Prop := ∀ i < 9, sub_board_decided b i = true

/-- A move sequence applied by successive `make_move` calls. -/
def play : Bitboard → List Nat → Bitboard
  | b, [] => b
  | b, mov :: rest => play (b.make_move mov) rest

/-- Executable check that every move of the sequence is produced by
`get_all_moves` in the state it is played from. -/
def legal_seq : Bitboard → List Nat → Bool
  | _, [] => true
  | b, mov :: rest => b.get_all_moves.contains mov && legal_seq (b.make_move mov) rest

/-- States reachable from the initial board by `make_move` steps whose moves
come from `get_all_moves`. -/
inductive Reachable : Bitboard → Prop
  | init : Reachable Bitboard.default
  | step {b mov} : Reachable b → mov ∈ b.get_all_moves → Reachable (b.make_move mov)

/-- Number of stones player `p` has on the whole board. -/
def stones (b : Bitboard) (p : Nat) : Nat := ∑ i ∈ Finset.range 9, count_ones (b.bd p i)

/-- The structural invariant of every reachable state: the fixed `[[usize; 9]; 2]`
shape, 9-bit occupancies, disjoint players, a well-formed constraint word,
both caches marked dirty (`make_move` always dirties them and nothing in a
make-only walk cleans them), and the stone-count balance of alternating turns. -/
structure Inv (b : Bitboard) : Prop where
  shape0 : b.board.length = 2
  shape1 : ∀ row ∈ b.board, row.length = 9
  turn_le : b.turn ≤ 1
  lt512 : ∀ p < 2, ∀ i < 9, b.bd p i < 512
  disj : ∀ i < 9, (b.bd 0 i) &&& (b.bd 1 i) = 0
  vf : b.valid_field = ALL_FIELDS ∨ ∃ k < 9, b.valid_field = 1 <<< k
  mdirty : b.cached_meta_field_dirty = true
  gdirty : b.cached_game_over_dirty = true
  parity : (b.turn = 0 ∧ stones b 0 = stones b 1) ∨ (b.turn = 1 ∧ stones b 0 = stones b 1 + 1)

/-- Stack-disciplined traces: `ReachTrace b st` holds when the engine can be
in state `b` with pending (not yet undone) moves `st` (most recent first)
after legal `make_move` calls and matching LIFO `undo_move` calls. -/
inductive ReachTrace : Bitboard → List Nat → Prop
  | init : ReachTrace Bitboard.default []
  | mk {b st mov} : ReachTrace b st → mov ∈ b.get_all_moves →
      ReachTrace (b.make_move mov) (mov :: st)
  | undo {b st mov} : ReachTrace b (mov :: st) → ReachTrace (b.undo_move mov) st

/-- Make-only evidence for a state together with its pending-move stack. -/
inductive ValidStack : Bitboard → List Nat → Prop
  | nil : ValidStack Bitboard.default []
  | cons {b st mov} : ValidStack b st → mov ∈ b.get_all_moves →
      ValidStack (b.make_move mov) (mov :: st)

/-- A concrete 17-move game in which player 0 wins sub-boards 3, 4 and 5
(a middle row of the macro board) while sub-board 2 still has empty cells
and is the active constraint.  Each entry is `(1 <<< cell) ||| ((1 <<< sub) <<< 16)`,
the first one tagged `ALL_FIELDS_LEGAL` because the opening position is
unconstrained. -/
def c3_moves : List Nat := [
  (1 <<< 0) ||| ((1 <<< 3) <<< 16) ||| ALL_FIELDS_LEGAL,
  (1 <<< 3) ||| ((1 <<< 0) <<< 16),
  (1 <<< 1) ||| ((1 <<< 3) <<< 16),
  (1 <<< 3) ||| ((1 <<< 1) <<< 16),
  (1 <<< 2) ||| ((1 <<< 3) <<< 16),
  (1 <<< 4) ||| ((1 <<< 2) <<< 16),
  (1 <<< 0) ||| ((1 <<< 4) <<< 16),
  (1 <<< 4) ||| ((1 <<< 0) <<< 16),
  (1 <<< 1) ||| ((1 <<< 4) <<< 16),
  (1 <<< 4) ||| ((1 <<< 1) <<< 16),
  (1 <<< 2) ||| ((1 <<< 4) <<< 16),
  (1 <<< 5) ||| ((1 <<< 2) <<< 16),
  (1 <<< 0) ||| ((1 <<< 5) <<< 16),
  (1 <<< 5) ||| ((1 <<< 0) <<< 16),
  (1 <<< 1) ||| ((1 <<< 5) <<< 16),
  (1 <<< 5) ||| ((1 <<< 1) <<< 16),
  (1 <<< 2) ||| ((1 <<< 5) <<< 16)]

/-- A fully decided position (every sub-board won by player 0), used as a
concrete witness input. -/
def tied_board : Bitboard where
  valid_field := ALL_FIELDS
  board := [[7, 7, 7, 7, 7, 7, 7, 7, 7], [0, 0, 0, 0, 0, 0, 0, 0, 0]]
  turn := 1
  cached_meta_field := [0, 0]
  cached_game_over := false
  cached_meta_field_dirty := true
  cached_game_over_dirty := true

/-- Cache-free variant of `get_meta_field`: recomputes the two meta words
from the occupancy arrays on every call. -/
def meta_recompute (b : Bitboard) : List Nat := [b.meta_word 0, b.meta_word 1]

/-- Cache-free variant of `game_over`: recomputes the answer from the
occupancy arrays on every call (same computation as the dirty path of
`game_over`, without reading or writing any cache field). -/
def game_over_recompute (b : Bitboard) : Bool :=
  if ((List.range 9).map (fun i => count_ones (b.bd 0 i))).sum < 9 then false
  else
    (is_won ((meta_recompute b).getD WHITE 0) || is_won ((meta_recompute b).getD BLACK 0))
      || b.game_tied

/-- The four operations a caller can perform on a `Bitboard`. -/
inductive Op where
  | mk_mv (mov : Nat)
  | undo_mv (mov : Nat)
  | query_over
  | query_meta

/-- One operation applied to the state. -/
def exec_op (b : Bitboard) : Op → Bitboard
  | .mk_mv m => b.make_move m
  | .undo_mv m => b.undo_move m
  | .query_over => (b.game_over).2
  | .query_meta => (b.get_meta_field).2

/-- A call sequence applied to the state. -/
def exec_ops (b : Bitboard) : List Op → Bitboard
  | [] => b
  | op :: rest => exec_ops (exec_op b op) rest

/-- Cache coherence: whichever cache is clean holds exactly the value the
cache-free recomputation would produce. -/
def cache_ok (b : Bitboard) : Prop :=
  (b.cached_meta_field_dirty = false → b.cached_meta_field = meta_recompute b)
    ∧ (b.cached_game_over_dirty = false → b.cached_game_over = game_over_recompute b)

/-- What the Rust types and the program's turn discipline give for free:
a `[[usize; 9]; 2]` board (fixed shape, 64-bit entries) and a binary turn. -/
structure WF (b : Bitboard) : Prop where
  shape0 : b.board.length = 2
  shape1 : ∀ row ∈ b.board, row.length = 9
  turn_le : b.turn ≤ 1
  lt64 : ∀ p < 2, ∀ i < 9, b.bd p i < 2 ^ 64

/-! ### Bit-level facts about the move encoding, by finite check -/

theorem to_index_pow : ∀ s < 9, to_index (1 <<< s) = s := by decide

theorem is_won_pow : ∀ i < 9, is_won (1 <<< i) = false := by decide

theorem decode_plain : ∀ s < 9, ∀ i < 9,
    square_of ((1 <<< s) ||| ((1 <<< i) <<< 16)) = 1 <<< s
      ∧ field_of ((1 <<< s) ||| ((1 <<< i) <<< 16)) = 1 <<< i
      ∧ (((1 <<< s) ||| ((1 <<< i) <<< 16)) &&& ALL_FIELDS_LEGAL != 0) = false := by decide

theorem decode_tagged : ∀ s < 9, ∀ i < 9,
    square_of ((1 <<< s) ||| ((1 <<< i) <<< 16) ||| ALL_FIELDS_LEGAL) = 1 <<< s
      ∧ field_of ((1 <<< s) ||| ((1 <<< i) <<< 16) ||| ALL_FIELDS_LEGAL) = 1 <<< i
      ∧ (((1 <<< s) ||| ((1 <<< i) <<< 16) ||| ALL_FIELDS_LEGAL) &&& ALL_FIELDS_LEGAL != 0)
        = true := by
  decide

theorem pow_and_pow : ∀ i < 9, ∀ k < 9, ((1 <<< i) &&& (1 <<< k) ≠ 0) ↔ i = k := by decide

/-- Shape of any element of `get_all_moves`: a one-hot cell in a one-hot
sub-board that passed the constraint, emptiness and blocked filters, tagged
with `ALL_FIELDS_LEGAL` exactly when the constraint was unrestricted. -/
theorem of_mem_get_all_moves {b : Bitboard} {mov : Nat} (h : mov ∈ b.get_all_moves) :
    ∃ i < 9, ∃ s < 9,
      mov = (1 <<< s) ||| ((1 <<< i) <<< 16)
          ||| (if b.valid_field == 0o777 then ALL_FIELDS_LEGAL else 0)
        ∧ (1 <<< i) &&& b.valid_field ≠ 0
        ∧ b.taken ((1 <<< s) ||| ((1 <<< i) <<< 16)) = false
        ∧ b.field_is_blocked i = false := by
  simp only [Bitboard.get_all_moves, List.mem_flatMap, List.mem_range] at h
  obtain ⟨i, hi, hmem⟩ := h
  refine ⟨i, hi, ?_⟩
  split at hmem
  case isTrue hvf =>
    simp only [List.mem_filterMap, List.mem_range] at hmem
    obtain ⟨s, hs, heq⟩ := hmem
    refine ⟨s, hs, ?_⟩
    split at heq
    case isTrue hcond =>
      rw [Bool.and_eq_true, Bool.not_eq_true', Bool.not_eq_true'] at hcond
      exact ⟨(Option.some_injective _ heq).symm, by simpa using hvf, hcond.1, hcond.2⟩
    case isFalse => exact absurd heq (by simp)
  case isFalse => simp at hmem

/-! ### Claim C1: value of the perft entry point at depth 0 -/

/-- C1 counterexample: the perft entry point `move_gen` applied to the fixed
initial board `Bitboard::default()` with depth 0 does NOT return 9. -/
theorem c1_counterexample : move_gen Bitboard.default 0 ≠ 9 := by decide

/-- C1 (amended): invoked on the fixed initial board with depth 0, the perft
entry point returns 81 — one move for each of the 9 empty cells in each of
the 9 legal sub-boards of the unconstrained initial position. -/
theorem c1_initial_depth0_returns_81 : move_gen Bitboard.default 0 = 81 := by decide

/-! ### Claim C6: the active constraint set by `make_move` -/

/-- C6: after `make_move` plays cell `c` of sub-board `i`, the active
constraint is "only sub-board `c`" unless sub-board `c` is decided (won by
either player or tied) in the resulting position, in which case it is "all
9 sub-boards legal". -/
theorem c6_constraint_after_make_move (b : Bitboard) (c i : Nat) (hc : c < 9) (hi : i < 9) :
    (b.make_move ((1 <<< c) ||| ((1 <<< i) <<< 16))).valid_field
      = if sub_board_decided (b.make_move ((1 <<< c) ||| ((1 <<< i) <<< 16))) c
          then ALL_FIELDS else 1 <<< c := by
  obtain ⟨hsq, hfd, -⟩ := decode_plain c hc i hi
  simp only [Bitboard.make_move, hsq, hfd, to_index_pow c hc, is_won_pow i hi,
    Bool.or_false, sub_board_decided, Bitboard.field_is_blocked, Bitboard.bd, is_tied,
    WHITE, BLACK]

/-! ### Claim C7: constraint pointing at a decided sub-board yields no moves -/

/-- C7: when the active constraint names the single sub-board `k` and that
sub-board is decided, `get_all_moves` is empty — the decided target is not
re-interpreted as "all sub-boards legal". -/
theorem c7_blocked_constraint_no_moves (b : Bitboard) (k : Nat) (hk : k < 9)
    (hvf : b.valid_field = 1 <<< k) (hblk : b.field_is_blocked k = true) :
    b.get_all_moves = [] := by
  simp only [Bitboard.get_all_moves, List.flatMap_eq_nil_iff, List.mem_range]
  intro i hi
  rw [hvf]
  by_cases hik : i = k
  · subst hik
    rw [if_pos (by simpa using (pow_and_pow i hi i hi).mpr rfl)]
    simp [hblk]
  · rw [if_neg (by simpa using fun hne => hik ((pow_and_pow i hi k hk).mp hne))]

/-! ### Claim C8: the win oracle against the 8 line patterns -/

/-- C8: for every 9-bit mask, `is_won` holds iff the mask contains one of
the 8 win lines (3 rows, 3 columns, 2 diagonals) of the 3×3 grid. -/
theorem c8_is_won_iff_line (m : Nat) (hm : m < 512) :
    is_won m = true ↔ ∃ L ∈ spec_lines, m &&& line_mask L = line_mask L := by
  revert hm
  have : ∀ m < 512, (is_won m = true ↔ ∃ L ∈ spec_lines, m &&& line_mask L = line_mask L) := by
    decide
  exact this m

/-- Witness for C8 at the concrete mask `0o007` (top row fully set). -/
theorem c8_witness :
    (7 : Nat) < 512
      ∧ (is_won 7 = true ↔ ∃ L ∈ spec_lines, 7 &&& line_mask L = line_mask L) :=
  ⟨by decide, c8_is_won_iff_line 7 (by decide)⟩

/-- Witness for C6 at a concrete input: playing cell 4 of sub-board 0 on the
initial board constrains the opponent to sub-board 4. -/
theorem c6_witness :
    (Bitboard.default.make_move ((1 <<< 4) ||| ((1 <<< 0) <<< 16))).valid_field
      = if sub_board_decided (Bitboard.default.make_move ((1 <<< 4) ||| ((1 <<< 0) <<< 16))) 4
          then ALL_FIELDS else 1 <<< 4 :=
  c6_constraint_after_make_move Bitboard.default 4 0 (by decide) (by decide)

/-! ### List and bit-vector helper lemmas -/

theorem getD_set_self {α : Type} {l : List α} {i : Nat} (h : i < l.length) (a d : α) :
    (l.set i a).getD i d = a := by
  rw [List.getD_eq_getElem?_getD, List.getElem?_set_self h]
  rfl

theorem getD_set_ne {α : Type} {l : List α} {i j : Nat} (h : i ≠ j) (a d : α) :
    (l.set i a).getD j d = l.getD j d := by
  rw [List.getD_eq_getElem?_getD, List.getElem?_set_ne h, ← List.getD_eq_getElem?_getD]

theorem set_getD_eq_self {α : Type} {l : List α} {i : Nat} (h : i < l.length) (d : α) :
    l.set i (l.getD i d) = l := by
  apply List.ext_getElem (by simp)
  intro j hj1 hj2
  rcases eq_or_ne i j with rfl | hne
  · simp [List.getD_eq_getElem?_getD, List.getElem?_eq_getElem h]
  · rw [List.getElem_set_ne hne]

theorem land_eq_zero_iff {x y : Nat} :
    x &&& y = 0 ↔ ∀ j, (x.testBit j && y.testBit j) = false := by
  constructor
  · intro h j
    have := congrArg (fun z => Nat.testBit z j) h
    simpa [Nat.testBit_land, Nat.zero_testBit] using this
  · intro h
    apply Nat.eq_of_testBit_eq
    intro j
    simp [Nat.testBit_land, Nat.zero_testBit, h j]

theorem lor_land_eq_zero {x y z : Nat} (h1 : x &&& z = 0) (h2 : y &&& z = 0) :
    (x ||| y) &&& z = 0 := by
  rw [land_eq_zero_iff] at h1 h2 ⊢
  intro j
  have e1 := h1 j
  have e2 := h2 j
  rw [Nat.testBit_lor]
  cases hx : Nat.testBit x j <;> cases hy : Nat.testBit y j <;> simp_all

theorem land_eq_zero_of_lor_left {x y z : Nat} (h : (x ||| y) &&& z = 0) :
    x &&& z = 0 := by
  rw [land_eq_zero_iff] at h ⊢
  intro j
  have := h j
  rw [Nat.testBit_lor] at this
  cases hx : Nat.testBit x j <;> simp_all

theorem land_eq_zero_of_lor_right {x y z : Nat} (h : (x ||| y) &&& z = 0) :
    y &&& z = 0 := by
  rw [land_eq_zero_iff] at h ⊢
  intro j
  have := h j
  rw [Nat.testBit_lor] at this
  cases hy : Nat.testBit y j <;> simp_all

theorem cnt_lor_pow : ∀ x < 512, ∀ s < 9, x &&& (1 <<< s) = 0 →
    count_ones (x ||| (1 <<< s)) = count_ones x + 1 := by decide

theorem clear_restores : ∀ x < 512, ∀ s < 9, x &&& (1 <<< s) = 0 →
    (x ||| (1 <<< s)) &&& ((2 ^ 64 - 1) ^^^ (1 <<< s)) = x := by decide

theorem lor_pow_lt_512 {x s : Nat} (hx : x < 512) (hs : s < 9) : x ||| (1 <<< s) < 512 := by
  have : (1 : Nat) <<< s < 512 := by
    rw [Nat.one_shiftLeft]
    calc 2 ^ s < 2 ^ 9 := Nat.pow_lt_pow_right (by omega) (by omega)
    _ = 512 := by norm_num
  exact Nat.or_lt_two_pow (n := 9) hx this

theorem list_sum_range (f : Nat → Nat) (n : Nat) :
    ((List.range n).map f).sum = ∑ j ∈ Finset.range n, f j := by
  induction n with
  | zero => simp
  | succ m ih => simp [List.range_succ, Finset.sum_range_succ, ih]

/-! ### A closed form for `make_move` on well-shaped moves -/

/-- `make_move` on a decoded move: the occupancy bit is set for the mover,
the constraint is recomputed from the post-move board, the turn flips, and
both caches are dirtied (their cached values are left in place). -/
theorem make_move_eq {b : Bitboard} {mov i s : Nat} (hi : i < 9) (hs : s < 9)
    (hmov : mov = (1 <<< s) ||| ((1 <<< i) <<< 16)
      ||| (if b.valid_field == 0o777 then ALL_FIELDS_LEGAL else 0)) :
    b.make_move mov = { b with
      board := b.setBit b.turn i (1 <<< s)
      valid_field :=
        if ({ b with board := b.setBit b.turn i (1 <<< s) } : Bitboard).field_is_blocked s
          then ALL_FIELDS else 1 <<< s
      turn := 1 - b.turn
      cached_game_over_dirty := true
      cached_meta_field_dirty := true } := by
  rcases Bool.eq_false_or_eq_true (b.valid_field == 0o777) with h | h
  · obtain ⟨e1, e2, -⟩ := decode_tagged s hs i hi
    simp only [hmov, h, eq_self_iff_true, if_true]
    simp only [Bitboard.make_move, e1, e2, to_index_pow s hs, to_index_pow i hi,
      is_won_pow i hi, Bool.or_false]
  · obtain ⟨e1, e2, -⟩ := decode_plain s hs i hi
    simp only [hmov, h, Bool.false_eq_true, if_false, Nat.or_zero]
    simp only [Bitboard.make_move, e1, e2, to_index_pow s hs, to_index_pow i hi,
      is_won_pow i hi, Bool.or_false]

/-- Decomposition of a generated move, with the emptiness test already
rewritten into a bit statement about the played cell. -/
theorem mem_decomp {b : Bitboard} {mov : Nat} (hm : mov ∈ b.get_all_moves) :
    ∃ i, i < 9 ∧ ∃ s, s < 9 ∧
      mov = (1 <<< s) ||| ((1 <<< i) <<< 16)
          ||| (if b.valid_field == 0o777 then ALL_FIELDS_LEGAL else 0)
        ∧ (1 <<< i) &&& b.valid_field ≠ 0
        ∧ ((b.bd 0 i) ||| (b.bd 1 i)) &&& (1 <<< s) = 0
        ∧ b.field_is_blocked i = false := by
  obtain ⟨i, hi, s, hs, hmov, hbit, htk, hblk⟩ := of_mem_get_all_moves hm
  obtain ⟨e1, e2, -⟩ := decode_plain s hs i hi
  refine ⟨i, hi, s, hs, hmov, hbit, ?_, hblk⟩
  simp only [Bitboard.taken, e1, e2, to_index_pow i hi, bne_eq_false_iff_eq] at htk
  exact htk

/-- Reading one `bd` cell after the in-place `|=`/`&=` row update. -/
theorem bd_after_set {b : Bitboard} {t i : Nat} (h0 : b.board.length = 2)
    (hrow : (b.board.getD t []).length = 9) (ht : t < 2) (hi : i < 9) (v p j : Nat)
    (hp : p < 2) :
    ((b.board.set t ((b.board.getD t []).set i v)).getD p []).getD j 0
      = if p = t ∧ j = i then v else b.bd p j := by
  rcases eq_or_ne p t with rfl | hpt
  · rw [getD_set_self (by omega)]
    rcases eq_or_ne j i with rfl | hji
    · rw [getD_set_self (by omega)]
      simp
    · rw [getD_set_ne (fun hip => hji hip.symm)]
      simp [Bitboard.bd, hji]
  · rw [getD_set_ne (fun htp => hpt htp.symm)]
    simp [Bitboard.bd, fun h : p = t => hpt h]

/-- The stone count of the mover goes up by one, the opponent's is unchanged. -/
theorem stones_after_set {b : Bitboard} {t i s : Nat} (h0 : b.board.length = 2)
    (hrow : (b.board.getD t []).length = 9) (ht : t < 2) (hi : i < 9) (hs : s < 9)
    (hx : (b.bd t i) &&& (1 <<< s) = 0) (hlt : b.bd t i < 512) (p : Nat) (hp : p < 2) :
    (∑ j ∈ Finset.range 9, count_ones
        (((b.board.set t ((b.board.getD t []).set i ((b.bd t i) ||| (1 <<< s)))).getD p []).getD j 0))
      = stones b p + if p = t then 1 else 0 := by
  have key : ∀ j ∈ Finset.range 9, count_ones
      (((b.board.set t ((b.board.getD t []).set i ((b.bd t i) ||| (1 <<< s)))).getD p []).getD j 0)
      = count_ones (b.bd p j) + (if p = t ∧ j = i then 1 else 0) := by
    intro j hj
    rw [bd_after_set h0 hrow ht hi _ p j hp]
    by_cases hc : p = t ∧ j = i
    · rw [if_pos hc, if_pos hc, hc.1, hc.2]
      exact cnt_lor_pow _ hlt _ hs hx
    · rw [if_neg hc, if_neg hc, Nat.add_zero]
  rw [Finset.sum_congr rfl key, Finset.sum_add_distrib]
  have hsum2 : (∑ j ∈ Finset.range 9, if p = t ∧ j = i then 1 else 0)
      = if p = t then 1 else 0 := by
    by_cases hpt : p = t
    · simp only [hpt, true_and, Finset.sum_ite_eq' (Finset.range 9) i (fun _ => 1)]
      simp [Finset.mem_range.mpr hi]
    · simp [hpt]
  rw [hsum2]
  rfl

theorem land_lor_eq_zero {x y z : Nat} (h1 : x &&& y = 0) (h2 : x &&& z = 0) :
    x &&& (y ||| z) = 0 := by
  rw [Nat.land_comm]
  exact lor_land_eq_zero (Nat.land_comm y x ▸ h1) (Nat.land_comm z x ▸ h2)

theorem row_mem {b : Bitboard} (h0 : b.board.length = 2) {t : Nat} (ht : t < 2) :
    b.board.getD t [] ∈ b.board := by
  rw [List.getD_eq_getElem b.board [] (by omega)]
  exact List.getElem_mem _

/-! ### Preservation of the invariant by legal `make_move` steps -/

theorem Inv.make {b : Bitboard} {mov : Nat} (hb : Inv b) (hm : mov ∈ b.get_all_moves) :
    Inv (b.make_move mov) := by
  obtain ⟨i, hi, s, hs, hmov, hbit, hempty, hblk⟩ := mem_decomp hm
  have heq := make_move_eq hi hs hmov
  have ht2 : b.turn < 2 := by have := hb.turn_le; omega
  have hrow : (b.board.getD b.turn []).length = 9 := hb.shape1 _ (row_mem hb.shape0 ht2)
  have hx : b.bd b.turn i &&& (1 <<< s) = 0 := by
    rcases Nat.le_one_iff_eq_zero_or_eq_one.mp hb.turn_le with h | h <;> rw [h]
    · exact land_eq_zero_of_lor_left hempty
    · exact land_eq_zero_of_lor_right hempty
  have hst : ∀ p, p < 2 → stones (b.make_move mov) p
      = stones b p + if p = b.turn then 1 else 0 := by
    intro p hp
    rw [heq]
    simp only [stones, Bitboard.bd, Bitboard.setBit]
    exact stones_after_set hb.shape0 hrow ht2 hi hs hx (hb.lt512 _ ht2 _ hi) p hp
  rw [heq]
  constructor
  · simp [Bitboard.setBit, hb.shape0]
  · intro row hmemrow
    simp only [Bitboard.setBit] at hmemrow
    rcases List.mem_or_eq_of_mem_set hmemrow with hmem | rfl
    · exact hb.shape1 _ hmem
    · rw [List.length_set]
      exact hrow
  · simp only
    omega
  · intro p hp j hj
    simp only [Bitboard.bd, Bitboard.setBit]
    rw [bd_after_set hb.shape0 hrow ht2 hi _ p j hp]
    by_cases hc : p = b.turn ∧ j = i
    · rw [if_pos hc]
      exact lor_pow_lt_512 (hb.lt512 _ ht2 _ hi) hs
    · rw [if_neg hc]
      exact hb.lt512 p hp j hj
  · intro j hj
    simp only [Bitboard.bd, Bitboard.setBit]
    rw [bd_after_set hb.shape0 hrow ht2 hi _ 0 j (by omega),
      bd_after_set hb.shape0 hrow ht2 hi _ 1 j (by omega)]
    rcases Nat.le_one_iff_eq_zero_or_eq_one.mp hb.turn_le with ht | ht
    · by_cases hji : j = i
      · rw [ht, hji, if_pos ⟨rfl, rfl⟩, if_neg (by simp)]
        refine lor_land_eq_zero (hb.disj i hi) ?_
        have h1s : b.bd 1 i &&& (1 <<< s) = 0 := land_eq_zero_of_lor_right hempty
        rw [Nat.land_comm]
        exact h1s
      · rw [if_neg (by tauto), if_neg (by tauto)]
        exact hb.disj j hj
    · by_cases hji : j = i
      · rw [ht, hji, if_neg (by simp), if_pos ⟨rfl, rfl⟩]
        exact land_lor_eq_zero (hb.disj i hi) (land_eq_zero_of_lor_left hempty)
      · rw [if_neg (by tauto), if_neg (by tauto)]
        exact hb.disj j hj
  · simp only
    split
    · exact Or.inl rfl
    · exact Or.inr ⟨s, hs, rfl⟩
  · rfl
  · rfl
  · have h0 := hst 0 (by omega)
    have h1 := hst 1 (by omega)
    rw [heq] at h0 h1
    rcases hb.parity with ⟨ht0, hstones⟩ | ⟨ht1, hstones⟩
    · right
      refine ⟨show 1 - b.turn = 1 by omega, ?_⟩
      rw [h0, h1, ht0]
      norm_num [hstones]
    · left
      refine ⟨show 1 - b.turn = 0 by omega, ?_⟩
      rw [h0, h1, ht1]
      norm_num [hstones]

/-- The initial state satisfies the invariant. -/
theorem inv_default : Inv Bitboard.default := by
  refine ⟨?_, ?_, ?_, ?_, ?_, Or.inl rfl, rfl, rfl, Or.inl ⟨rfl, ?_⟩⟩ <;> decide

/-- Every reachable state satisfies the invariant. -/
theorem reachable_inv {b : Bitboard} (h : Reachable b) : Inv b := by
  induction h with
  | init => exact inv_default
  | step hr hmem ih => exact Inv.make ih hmem

/-! ### `undo_move` after `make_move` restores the state -/

theorem make_undo {b : Bitboard} {mov : Nat} (hb : Inv b) (hm : mov ∈ b.get_all_moves) :
    (b.make_move mov).undo_move mov = b := by
  obtain ⟨i, hi, s, hs, hmov, hbit, hempty, hblk⟩ := mem_decomp hm
  have heq := make_move_eq hi hs hmov
  have ht2 : b.turn < 2 := by have := hb.turn_le; omega
  have hrow : (b.board.getD b.turn []).length = 9 := hb.shape1 _ (row_mem hb.shape0 ht2)
  have hx : b.bd b.turn i &&& (1 <<< s) = 0 := by
    rcases Nat.le_one_iff_eq_zero_or_eq_one.mp hb.turn_le with h | h <;> rw [h]
    · exact land_eq_zero_of_lor_left hempty
    · exact land_eq_zero_of_lor_right hempty
  have hlt : b.bd b.turn i < 512 := hb.lt512 _ ht2 _ hi
  have hlen2 : b.board.length = 2 := hb.shape0
  have hp2 : 1 - (1 - b.turn) = b.turn := by omega
  have hboard :
      (b.setBit b.turn i (1 <<< s)).set b.turn
        (((b.setBit b.turn i (1 <<< s)).getD b.turn []).set i
          ((((b.setBit b.turn i (1 <<< s)).getD b.turn []).getD i 0)
            &&& ((2 ^ 64 - 1) ^^^ (1 <<< s))))
      = b.board := by
    have hBget : (b.setBit b.turn i (1 <<< s)).getD b.turn []
        = (b.board.getD b.turn []).set i ((b.bd b.turn i) ||| (1 <<< s)) := by
      simp only [Bitboard.setBit]
      exact getD_set_self (by omega) _ _
    rw [hBget, getD_set_self (by omega) _ _, clear_restores _ hlt _ hs hx]
    simp only [Bitboard.setBit, List.set_set, Bitboard.bd]
    rw [set_getD_eq_self (show i < (b.board.getD b.turn []).length by omega) 0,
      set_getD_eq_self (show b.turn < b.board.length by omega) ([] : List Nat)]
  rcases Bool.eq_false_or_eq_true (b.valid_field == 0o777) with h777 | h777
  · obtain ⟨e1, e2, e3⟩ := decode_tagged s hs i hi
    have hmovc : mov = (1 <<< s) ||| ((1 <<< i) <<< 16) ||| ALL_FIELDS_LEGAL := by
      rw [hmov, h777]
      simp
    rw [heq]
    simp only [Bitboard.undo_move, Bitboard.clearBit, Bitboard.bd, hmovc, e1, e2, e3,
      to_index_pow i hi, hp2, eq_self_iff_true, if_true]
    refine Bitboard.ext ?_ ?_ ?_ ?_ ?_ ?_ ?_
    · exact (beq_iff_eq.mp h777).symm
    · exact hboard
    · rfl
    · rfl
    · exact hb.mdirty.symm
    · rfl
    · exact hb.gdirty.symm
  · obtain ⟨e1, e2, e3⟩ := decode_plain s hs i hi
    have hmovc : mov = (1 <<< s) ||| ((1 <<< i) <<< 16) := by
      rw [hmov, h777]
      simp
    have hvfk : b.valid_field = 1 <<< i := by
      rcases hb.vf with hall | ⟨k, hk, hvk⟩
      · rw [hall] at h777
        simp [ALL_FIELDS] at h777
      · rw [hvk] at hbit
        rw [hvk, (pow_and_pow i hi k hk).mp hbit]
    rw [heq]
    simp only [Bitboard.undo_move, Bitboard.clearBit, Bitboard.bd, hmovc, e1, e2, e3,
      to_index_pow i hi, hp2, Bool.false_eq_true, if_false]
    refine Bitboard.ext ?_ ?_ ?_ ?_ ?_ ?_ ?_
    · exact hvfk.symm
    · exact hboard
    · rfl
    · rfl
    · exact hb.mdirty.symm
    · rfl
    · exact hb.gdirty.symm


/-! ### Claims C2 and C9: round-trip and disjointness on reachable states -/

theorem valid_stack_reachable {b : Bitboard} {st : List Nat} (h : ValidStack b st) :
    Reachable b := by
  induction h with
  | nil => exact Reachable.init
  | cons hv hmem ih => exact Reachable.step ih hmem

theorem reach_trace_valid {b : Bitboard} {st : List Nat} (h : ReachTrace b st) :
    ValidStack b st := by
  induction h with
  | init => exact ValidStack.nil
  | mk hr hmem ih => exact ValidStack.cons ih hmem
  | undo hr ih =>
    cases ih with
    | cons hv hmem =>
      rw [make_undo (reachable_inv (valid_stack_reachable hv)) hmem]
      exact hv

/-- C2: on any reachable state, undoing a move produced by `get_all_moves`
right after making it restores the whole `Bitboard` — occupancies, cached
status words, active constraint, cached game-over flag and turn — to
bit-exact equality with the pre-move state. -/
theorem c2_make_undo_roundtrip (b : Bitboard) (mov : Nat) (hreach : Reachable b)
    (hm : mov ∈ b.get_all_moves) :
    (b.make_move mov).undo_move mov = b :=
  make_undo (reachable_inv hreach) hm

/-- Witness for C2: the round trip at the initial board on the first
generated move (sub-board 0, cell 0, tagged unconstrained). -/
theorem c2_witness :
    (Bitboard.default.make_move ((1 <<< 0) ||| ((1 <<< 0) <<< 16) ||| ALL_FIELDS_LEGAL)).undo_move
        ((1 <<< 0) ||| ((1 <<< 0) <<< 16) ||| ALL_FIELDS_LEGAL)
      = Bitboard.default :=
  c2_make_undo_roundtrip Bitboard.default _ Reachable.init (by decide)

/-- C9: in every state reachable through legal `make_move` calls and LIFO
`undo_move` calls, the two players' occupancy masks of each sub-board are
disjoint: `board[0][i] & board[1][i] = 0`. -/
theorem c9_players_disjoint {b : Bitboard} {st : List Nat} (h : ReachTrace b st) :
    ∀ i < 9, (b.bd 0 i) &&& (b.bd 1 i) = 0 :=
  (reachable_inv (valid_stack_reachable (reach_trace_valid h))).disj

/-- Witness for C9 at the empty trace and sub-board 4. -/
theorem c9_witness : (Bitboard.default.bd 0 4) &&& (Bitboard.default.bd 1 4) = 0 :=
  c9_players_disjoint ReachTrace.init 4 (by decide)

/-! ### Claim C3: move generation on finished games -/

theorem legal_seq_reachable (ms : List Nat) (b : Bitboard) (hb : Reachable b)
    (h : legal_seq b ms = true) : Reachable (play b ms) := by
  induction ms generalizing b with
  | nil => exact hb
  | cons m rest ih =>
    rw [legal_seq, Bool.and_eq_true] at h
    exact ih _ (Reachable.step hb (by simpa using h.1)) h.2

/-- C3 counterexample: after the concrete legal game `c3_moves`, player 0
owns the macro row {3,4,5}, so `game_over()` returns `true`, yet
`get_all_moves` still returns a non-empty list (sub-board 2 is the active
constraint and has empty cells). -/
theorem c3_counterexample :
    Reachable (play Bitboard.default c3_moves)
      ∧ ((play Bitboard.default c3_moves).game_over).1 = true
      ∧ (play Bitboard.default c3_moves).get_all_moves ≠ [] :=
  ⟨legal_seq_reachable _ _ Reachable.init (by decide), by decide, by decide⟩

/-- C3 (amended): `get_all_moves` returns the empty list whenever every
sub-board is decided (`game_tied`); when the game is over only through a
macro-line win, legal moves may remain and the enumerator must (and does)
check `game_over()` before generating moves. -/
theorem c3_amended_tied_no_moves (b : Bitboard) (h : b.game_tied = true) :
    b.get_all_moves = [] := by
  have hblk : ∀ i < 9, b.field_is_blocked i = true := by
    intro i hi
    have := (List.all_eq_true.mp h) i (List.mem_range.mpr hi)
    simpa [Bitboard.field_is_blocked, WHITE, BLACK] using this
  simp only [Bitboard.get_all_moves, List.flatMap_eq_nil_iff, List.mem_range]
  intro i hi
  split
  case isTrue =>
    rw [List.filterMap_eq_nil_iff]
    intro s hs
    simp [hblk i hi]
  case isFalse => rfl

/-- Witness for C3's amended statement on a concrete fully decided board. -/
theorem c3_amended_witness : tied_board.get_all_moves = [] :=
  c3_amended_tied_no_moves tied_board (by decide)



/-! ### Claim C4: characterising `game_over` on reachable states -/

theorem is_won_meta_natural : ∀ w0 w1 w2 w3 w4 w5 w6 w7 w8 : Bool,
    is_won (((cond w0 1 0) <<< 8) ||| ((cond w1 1 0) <<< 7) ||| ((cond w2 1 0) <<< 6)
        ||| ((cond w3 1 0) <<< 5) ||| ((cond w4 1 0) <<< 4) ||| ((cond w5 1 0) <<< 3)
        ||| ((cond w6 1 0) <<< 2) ||| ((cond w7 1 0) <<< 1) ||| ((cond w8 1 0) <<< 0))
      = is_won (((cond w0 1 0) <<< 0) ||| ((cond w1 1 0) <<< 1) ||| ((cond w2 1 0) <<< 2)
        ||| ((cond w3 1 0) <<< 3) ||| ((cond w4 1 0) <<< 4) ||| ((cond w5 1 0) <<< 5)
        ||| ((cond w6 1 0) <<< 6) ||| ((cond w7 1 0) <<< 7) ||| ((cond w8 1 0) <<< 8)) := by
  decide

/-- The reversed bit order of the cached meta word is harmless: the win
patterns of the 3×3 grid are closed under the 180° rotation `k ↦ 8 - k`. -/
theorem is_won_meta_word_eq_won_mask (b : Bitboard) (p : Nat) :
    is_won (b.meta_word p) = is_won (won_mask b p) :=
  is_won_meta_natural (is_won (b.bd p 0)) (is_won (b.bd p 1)) (is_won (b.bd p 2))
    (is_won (b.bd p 3)) (is_won (b.bd p 4)) (is_won (b.bd p 5)) (is_won (b.bd p 6))
    (is_won (b.bd p 7)) (is_won (b.bd p 8))

theorem won_mask_lt_512 : ∀ w0 w1 w2 w3 w4 w5 w6 w7 w8 : Bool,
    (((cond w0 1 0) <<< 0) ||| ((cond w1 1 0) <<< 1) ||| ((cond w2 1 0) <<< 2)
        ||| ((cond w3 1 0) <<< 3) ||| ((cond w4 1 0) <<< 4) ||| ((cond w5 1 0) <<< 5)
        ||| ((cond w6 1 0) <<< 6) ||| ((cond w7 1 0) <<< 7) ||| ((cond w8 1 0) <<< 8)) < 512 := by
  decide

theorem count_won_mask : ∀ w0 w1 w2 w3 w4 w5 w6 w7 w8 : Bool,
    count_ones (((cond w0 1 0) <<< 0) ||| ((cond w1 1 0) <<< 1) ||| ((cond w2 1 0) <<< 2)
        ||| ((cond w3 1 0) <<< 3) ||| ((cond w4 1 0) <<< 4) ||| ((cond w5 1 0) <<< 5)
        ||| ((cond w6 1 0) <<< 6) ||| ((cond w7 1 0) <<< 7) ||| ((cond w8 1 0) <<< 8))
      = (cond w0 1 0) + (cond w1 1 0) + (cond w2 1 0) + (cond w3 1 0) + (cond w4 1 0)
        + (cond w5 1 0) + (cond w6 1 0) + (cond w7 1 0) + (cond w8 1 0) := by
  decide

theorem cnt_ge3_of_won : ∀ m < 512, is_won m = true → 3 ≤ count_ones m := by decide

theorem cnt_compl : ∀ x < 512, count_ones x + count_ones (511 ^^^ x) = 9 := by decide

theorem compl_of_disjoint_full {x y : Nat} (hd : x &&& y = 0) (hf : x ||| y = 511) :
    y = 511 ^^^ x := by
  apply Nat.eq_of_testBit_eq
  intro j
  have h1 : (x.testBit j && y.testBit j) = false := land_eq_zero_iff.mp hd j
  have h2 : (x.testBit j || y.testBit j) = Nat.testBit 511 j := by
    rw [← Nat.testBit_lor, hf]
  rw [Nat.testBit_xor]
  cases hx : x.testBit j <;> cases hy : y.testBit j <;> simp_all

/-- The value `game_over()` computes when both caches are dirty (the only
situation arising on a make-only reachable state). -/
theorem game_over_val_of_dirty {b : Bitboard} (hmd : b.cached_meta_field_dirty = true)
    (hgd : b.cached_game_over_dirty = true) :
    (b.game_over).1 = if stones b 0 < 9 then false
      else ((is_won (b.meta_word 0) || is_won (b.meta_word 1)) || b.game_tied) := by
  rw [Bitboard.game_over, hgd]
  rw [Bitboard.get_meta_field, hmd]
  simp only [Bool.not_true, Bool.false_eq_true, if_false, list_sum_range]
  rw [apply_ite Prod.fst]
  rfl

/-- A macro win needs at least nine stones of the winning player. -/
theorem stones_ge_of_meta_win {b : Bitboard} (hb : Inv b) {p : Nat} (hp : p < 2)
    (hw : is_won (won_mask b p) = true) : 9 ≤ stones b p := by
  have hlt := won_mask_lt_512 (is_won (b.bd p 0)) (is_won (b.bd p 1)) (is_won (b.bd p 2))
    (is_won (b.bd p 3)) (is_won (b.bd p 4)) (is_won (b.bd p 5)) (is_won (b.bd p 6))
    (is_won (b.bd p 7)) (is_won (b.bd p 8))
  have hge3 : 3 ≤ count_ones (won_mask b p) := cnt_ge3_of_won _ hlt hw
  have hcw := count_won_mask (is_won (b.bd p 0)) (is_won (b.bd p 1)) (is_won (b.bd p 2))
    (is_won (b.bd p 3)) (is_won (b.bd p 4)) (is_won (b.bd p 5)) (is_won (b.bd p 6))
    (is_won (b.bd p 7)) (is_won (b.bd p 8))
  have hcw2 : count_ones (won_mask b p)
      = (cond (is_won (b.bd p 0)) 1 0) + (cond (is_won (b.bd p 1)) 1 0)
        + (cond (is_won (b.bd p 2)) 1 0) + (cond (is_won (b.bd p 3)) 1 0)
        + (cond (is_won (b.bd p 4)) 1 0) + (cond (is_won (b.bd p 5)) 1 0)
        + (cond (is_won (b.bd p 6)) 1 0) + (cond (is_won (b.bd p 7)) 1 0)
        + (cond (is_won (b.bd p 8)) 1 0) := hcw
  have hpt : ∀ k, k < 9 → 3 * (cond (is_won (b.bd p k)) 1 0) ≤ count_ones (b.bd p k) := by
    intro k hk
    cases h : is_won (b.bd p k)
    · simp
    · simpa using cnt_ge3_of_won _ (hb.lt512 p hp k hk) h
  have e0 := hpt 0 (by omega)
  have e1 := hpt 1 (by omega)
  have e2 := hpt 2 (by omega)
  have e3 := hpt 3 (by omega)
  have e4 := hpt 4 (by omega)
  have e5 := hpt 5 (by omega)
  have e6 := hpt 6 (by omega)
  have e7 := hpt 7 (by omega)
  have e8 := hpt 8 (by omega)
  have hex : stones b p = count_ones (b.bd p 0) + count_ones (b.bd p 1) + count_ones (b.bd p 2)
      + count_ones (b.bd p 3) + count_ones (b.bd p 4) + count_ones (b.bd p 5)
      + count_ones (b.bd p 6) + count_ones (b.bd p 7) + count_ones (b.bd p 8) := by
    simp [stones, Finset.sum_range_succ]
  omega

/-- A fully decided board needs at least nine stones of player 0. -/
theorem stones_ge_of_tied {b : Bitboard} (hb : Inv b) (ht : b.game_tied = true) :
    9 ≤ stones b 0 := by
  have hall := List.all_eq_true.mp ht
  have hpt : ∀ k, k < 9 → 3 ≤ count_ones (b.bd 0 k) + count_ones (b.bd 1 k) := by
    intro k hk
    have hk512a := hb.lt512 0 (by omega) k hk
    have hk512b := hb.lt512 1 (by omega) k hk
    have := hall k (List.mem_range.mpr hk)
    simp only [Bool.or_eq_true] at this
    rcases this with (hw | hw) | hfull
    · have := cnt_ge3_of_won _ hk512a hw
      omega
    · have := cnt_ge3_of_won _ hk512b hw
      omega
    · have hfull2 : (b.bd 0 k) ||| (b.bd 1 k) = 511 := by
        simpa [is_tied, ALL_FIELDS] using hfull
      have hcompl := compl_of_disjoint_full (hb.disj k hk) hfull2
      have := cnt_compl (b.bd 0 k) hk512a
      rw [← hcompl] at this
      omega
  have e0 := hpt 0 (by omega)
  have e1 := hpt 1 (by omega)
  have e2 := hpt 2 (by omega)
  have e3 := hpt 3 (by omega)
  have e4 := hpt 4 (by omega)
  have e5 := hpt 5 (by omega)
  have e6 := hpt 6 (by omega)
  have e7 := hpt 7 (by omega)
  have e8 := hpt 8 (by omega)
  have hex0 : stones b 0 = count_ones (b.bd 0 0) + count_ones (b.bd 0 1) + count_ones (b.bd 0 2)
      + count_ones (b.bd 0 3) + count_ones (b.bd 0 4) + count_ones (b.bd 0 5)
      + count_ones (b.bd 0 6) + count_ones (b.bd 0 7) + count_ones (b.bd 0 8) := by
    simp [stones, Finset.sum_range_succ]
  have hex1 : stones b 1 = count_ones (b.bd 1 0) + count_ones (b.bd 1 1) + count_ones (b.bd 1 2)
      + count_ones (b.bd 1 3) + count_ones (b.bd 1 4) + count_ones (b.bd 1 5)
      + count_ones (b.bd 1 6) + count_ones (b.bd 1 7) + count_ones (b.bd 1 8) := by
    simp [stones, Finset.sum_range_succ]
  rcases hb.parity with ⟨-, hpar⟩ | ⟨-, hpar⟩ <;> omega

/-- `game_tied` coincides with the spec predicate `all_decided`. -/
theorem game_tied_iff_all_decided (b : Bitboard) :
    b.game_tied = true ↔ all_decided b := by
  simp only [Bitboard.game_tied, all_decided, sub_board_decided, List.all_eq_true,
    List.mem_range, WHITE, BLACK, is_tied, ALL_FIELDS]

/-- C4: on every reachable state, `game_over()` returns `true` iff one of the
two players owns a win line of the macro board or all 9 sub-boards are
decided. -/
theorem c4_game_over_iff (b : Bitboard) (hreach : Reachable b) :
    ((b.game_over).1 = true) ↔ (meta_win b WHITE ∨ meta_win b BLACK ∨ all_decided b) := by
  have hb := reachable_inv hreach
  rw [game_over_val_of_dirty hb.mdirty hb.gdirty]
  have hm0 := is_won_meta_word_eq_won_mask b 0
  have hm1 := is_won_meta_word_eq_won_mask b 1
  constructor
  · intro h
    split at h
    · exact absurd h (by simp)
    · simp only [Bool.or_eq_true] at h
      rcases h with (h0 | h1) | htd
      · exact Or.inl (by rw [meta_win, WHITE, ← hm0]; exact h0)
      · exact Or.inr (Or.inl (by rw [meta_win, BLACK, ← hm1]; exact h1))
      · exact Or.inr (Or.inr ((game_tied_iff_all_decided b).mp htd))
  · intro h
    have hstones : 9 ≤ stones b 0 := by
      rcases h with hw | hw | hd
      · exact stones_ge_of_meta_win hb (by omega) (by rw [meta_win, WHITE] at hw; exact hw)
      · have h1 : 9 ≤ stones b 1 :=
          stones_ge_of_meta_win hb (by omega) (by rw [meta_win, BLACK] at hw; exact hw)
        rcases hb.parity with ⟨-, hpar⟩ | ⟨-, hpar⟩ <;> omega
      · exact stones_ge_of_tied hb ((game_tied_iff_all_decided b).mpr hd)
    rw [if_neg (by omega)]
    rcases h with hw | hw | hd
    · rw [meta_win, WHITE] at hw
      rw [hm0, hw]
      simp
    · rw [meta_win, BLACK] at hw
      rw [hm1, hw]
      simp
    · rw [(game_tied_iff_all_decided b).mpr hd]
      simp

/-- Witness for C4 at the initial board (both sides false). -/
theorem c4_witness :
    ((Bitboard.default.game_over).1 = true)
      ↔ (meta_win Bitboard.default WHITE ∨ meta_win Bitboard.default BLACK
          ∨ all_decided Bitboard.default) :=
  c4_game_over_iff Bitboard.default Reachable.init



/-! ### Claim C10: cache transparency -/

theorem game_tied_congr {a a' : Bitboard} (h : a.board = a'.board) :
    a.game_tied = a'.game_tied := by
  simp [Bitboard.game_tied, Bitboard.bd, h]

theorem game_over_recompute_congr {a a' : Bitboard} (h : a.board = a'.board) :
    game_over_recompute a = game_over_recompute a' := by
  simp [game_over_recompute, meta_recompute, Bitboard.meta_word, Bitboard.bd, h,
    Bitboard.game_tied]

theorem meta_recompute_congr {a a' : Bitboard} (h : a.board = a'.board) :
    meta_recompute a = meta_recompute a' := by
  simp [meta_recompute, Bitboard.meta_word, Bitboard.bd, h]

theorem cache_ok_of_dirty {b : Bitboard} (h1 : b.cached_meta_field_dirty = true)
    (h2 : b.cached_game_over_dirty = true) : cache_ok b :=
  ⟨fun hf => absurd hf (by rw [h1]; exact fun hx => Bool.noConfusion hx),
    fun hf => absurd hf (by rw [h2]; exact fun hx => Bool.noConfusion hx)⟩

theorem get_meta_field_spec {b : Bitboard} (h : cache_ok b) :
    (b.get_meta_field).1 = meta_recompute b
      ∧ cache_ok (b.get_meta_field).2
      ∧ (b.get_meta_field).2.board = b.board := by
  rcases Bool.eq_false_or_eq_true b.cached_meta_field_dirty with hmd | hmd
  · rw [Bitboard.get_meta_field, hmd]
    refine ⟨?_, ⟨?_, ?_⟩, ?_⟩
    · rfl
    · intro _
      rfl
    · intro hf
      exact h.2 hf
    · rfl
  · rw [Bitboard.get_meta_field, hmd]
    exact ⟨h.1 hmd, h, rfl⟩

theorem game_over_spec {b : Bitboard} (h : cache_ok b) :
    (b.game_over).1 = game_over_recompute b
      ∧ cache_ok (b.game_over).2
      ∧ (b.game_over).2.board = b.board := by
  rcases Bool.eq_false_or_eq_true b.cached_game_over_dirty with hgd | hgd
  · obtain ⟨hm1, hm2, hm3⟩ := get_meta_field_spec h
    have hgt := game_tied_congr hm3
    rw [Bitboard.game_over, hgd]
    simp only [Bool.not_true, Bool.false_eq_true, if_false]
    by_cases hsum : ((List.range 9).map (fun i => count_ones (b.bd 0 i))).sum < 9
    · rw [if_pos hsum]
      refine ⟨?_, h, rfl⟩
      simp only [game_over_recompute, if_pos hsum]
    · rw [if_neg hsum]
      have hval : ((is_won ((b.get_meta_field).1.getD WHITE 0)
            || is_won ((b.get_meta_field).1.getD BLACK 0)) || (b.get_meta_field).2.game_tied)
          = game_over_recompute b := by
        rw [hm1, hgt]
        simp only [game_over_recompute, if_neg hsum]
      refine ⟨hval, ⟨?_, ?_⟩, hm3⟩
      · intro hf
        exact (hm2.1 hf).trans (meta_recompute_congr rfl)
      · intro _
        exact hval.trans (game_over_recompute_congr hm3.symm)
  · rw [Bitboard.game_over, hgd]
    exact ⟨h.2 hgd, h, rfl⟩

theorem exec_op_cache_ok {b : Bitboard} (h : cache_ok b) (op : Op) :
    cache_ok (exec_op b op) := by
  cases op with
  | mk_mv m => exact cache_ok_of_dirty rfl rfl
  | undo_mv m => exact cache_ok_of_dirty rfl rfl
  | query_over => exact (game_over_spec h).2.1
  | query_meta => exact (get_meta_field_spec h).2.1

theorem exec_ops_cache_ok (ops : List Op) {b : Bitboard} (h : cache_ok b) :
    cache_ok (exec_ops b ops) := by
  induction ops generalizing b with
  | nil => exact h
  | cons op rest ih => exact ih (exec_op_cache_ok h op)

/-- C10: caching is observationally transparent.  After any sequence of
`make_move`, `undo_move`, `game_over` and `get_meta_field` calls starting
from the initial board, `game_over()` and `get_meta_field()` return exactly
what the cache-free recompute variants return (and those variants read only
the occupancy arrays), because `make_move`/`undo_move` always dirty both
caches and a clean cache always holds the recomputed value. -/
theorem c10_cache_transparency (ops : List Op) :
    ((exec_ops Bitboard.default ops).game_over).1
        = game_over_recompute (exec_ops Bitboard.default ops)
      ∧ ((exec_ops Bitboard.default ops).get_meta_field).1
        = meta_recompute (exec_ops Bitboard.default ops)
      ∧ (∀ a a' : Bitboard, a.board = a'.board →
          game_over_recompute a = game_over_recompute a')
      ∧ (∀ a a' : Bitboard, a.board = a'.board → meta_recompute a = meta_recompute a') := by
  have h := exec_ops_cache_ok ops (cache_ok_of_dirty (b := Bitboard.default) rfl rfl)
  exact ⟨(game_over_spec h).1, (get_meta_field_spec h).1,
    fun a a' ha => game_over_recompute_congr ha, fun a a' ha => meta_recompute_congr ha⟩

/-- Witness for C7 on a concrete state: all sub-boards decided, constraint
fixed on sub-board 0. -/
theorem c7_witness :
    ({ tied_board with valid_field := 1 <<< 0 } : Bitboard).get_all_moves = [] :=
  c7_blocked_constraint_no_moves { tied_board with valid_field := 1 <<< 0 } 0
    (by decide) rfl (by decide)



/-! ### Claim C5: the recursion equations of the enumerator -/

theorem stones_congr {a a' : Bitboard} (h : a.board = a'.board) (p : Nat) :
    stones a p = stones a' p := by
  simp [stones, Bitboard.bd, h]

theorem meta_word_congr {a a' : Bitboard} (h : a.board = a'.board) (p : Nat) :
    a.meta_word p = a'.meta_word p := by
  simp [Bitboard.meta_word, Bitboard.bd, h]

theorem get_all_moves_congr {a a' : Bitboard} (hb : a.board = a'.board)
    (hv : a.valid_field = a'.valid_field) : a.get_all_moves = a'.get_all_moves := by
  simp only [Bitboard.get_all_moves, Bitboard.taken, Bitboard.field_is_blocked, Bitboard.bd,
    hb, hv]

/-- `get_meta_field` never touches the board, the constraint or the turn. -/
theorem get_meta_field_snd (b : Bitboard) :
    (b.get_meta_field).2.board = b.board
      ∧ (b.get_meta_field).2.valid_field = b.valid_field
      ∧ (b.get_meta_field).2.turn = b.turn := by
  rw [Bitboard.get_meta_field]
  rcases Bool.eq_false_or_eq_true b.cached_meta_field_dirty with h | h <;> rw [h] <;>
    exact ⟨rfl, rfl, rfl⟩

/-- `game_over` never touches the board, the constraint or the turn. -/
theorem game_over_snd (b : Bitboard) :
    (b.game_over).2.board = b.board
      ∧ (b.game_over).2.valid_field = b.valid_field
      ∧ (b.game_over).2.turn = b.turn := by
  rw [Bitboard.game_over]
  rcases Bool.eq_false_or_eq_true b.cached_game_over_dirty with h | h <;> rw [h]
  · by_cases hsum : ((List.range 9).map (fun i => count_ones (b.bd 0 i))).sum < 9
    · rw [if_pos hsum]
      exact ⟨rfl, rfl, rfl⟩
    · rw [if_neg hsum]
      exact ⟨(get_meta_field_snd b).1, (get_meta_field_snd b).2.1, (get_meta_field_snd b).2.2⟩
  · exact ⟨rfl, rfl, rfl⟩

/-- `make_move` reads only the board and the turn; two states agreeing there
produce the same board, constraint and turn (the caches are always dirtied). -/
theorem make_move_congr {a a' : Bitboard} (hb : a.board = a'.board) (ht : a.turn = a'.turn)
    (mov : Nat) :
    (a.make_move mov).board = (a'.make_move mov).board
      ∧ (a.make_move mov).valid_field = (a'.make_move mov).valid_field
      ∧ (a.make_move mov).turn = (a'.make_move mov).turn := by
  simp only [Bitboard.make_move, Bitboard.setBit, Bitboard.field_is_blocked, Bitboard.bd,
    hb, ht]
  refine ⟨?_, ?_, ?_⟩ <;> first | rfl | trivial

/-- Same for `undo_move`. -/
theorem undo_move_congr {a a' : Bitboard} (hb : a.board = a'.board) (ht : a.turn = a'.turn)
    (mov : Nat) :
    (a.undo_move mov).board = (a'.undo_move mov).board
      ∧ (a.undo_move mov).valid_field = (a'.undo_move mov).valid_field
      ∧ (a.undo_move mov).turn = (a'.undo_move mov).turn := by
  simp only [Bitboard.undo_move, Bitboard.clearBit, Bitboard.bd, hb, ht]
  refine ⟨?_, ?_, ?_⟩ <;> first | rfl | trivial

/-- With both caches dirty, the value of `game_over()` depends only on the
board. -/
theorem game_over_val_congr {x y : Bitboard} (hb : x.board = y.board)
    (xm : x.cached_meta_field_dirty = true) (xg : x.cached_game_over_dirty = true)
    (ym : y.cached_meta_field_dirty = true) (yg : y.cached_game_over_dirty = true) :
    (x.game_over).1 = (y.game_over).1 := by
  rw [game_over_val_of_dirty xm xg, game_over_val_of_dirty ym yg, stones_congr hb 0,
    meta_word_congr hb 0, meta_word_congr hb 1, game_tied_congr hb]



theorem move_gen_over {b : Bitboard} (h : (b.game_over).1 = true) (d : Nat) :
    move_gen b d = 0 := by
  rw [move_gen]
  simp [h]

theorem move_gen_zero {b : Bitboard} (h : (b.game_over).1 = false) :
    move_gen b 0 = (b.game_over).2.get_all_moves.length := by
  rw [move_gen]
  simp [h]

theorem move_gen_succ {b : Bitboard} (h : (b.game_over).1 = false) (d : Nat) :
    move_gen b (d + 1) = (b.game_over).2.get_all_moves.length
      + (move_gen_loop (fun x => move_gen x d) (b.game_over).2
          ((b.game_over).2.get_all_moves)).1 := by
  rw [move_gen]
  simp [h]

theorem move_gen_loop_congr (f : Bitboard → Nat)
    (hf : ∀ x y : Bitboard, x.board = y.board → x.valid_field = y.valid_field →
      x.turn = y.turn → x.cached_meta_field_dirty = true → x.cached_game_over_dirty = true →
      y.cached_meta_field_dirty = true → y.cached_game_over_dirty = true → f x = f y) :
    ∀ (ms : List Nat) (x y : Bitboard), x.board = y.board → x.turn = y.turn →
      (move_gen_loop f x ms).1 = (move_gen_loop f y ms).1
  | [], x, y, _, _ => rfl
  | m :: rest, x, y, hb, ht => by
    have hmk := make_move_congr hb ht m
    have hret : f (x.make_move m) = f (y.make_move m) :=
      hf _ _ hmk.1 hmk.2.1 hmk.2.2 rfl rfl rfl rfl
    have hun := undo_move_congr hmk.1 hmk.2.2 m
    have hrest := move_gen_loop_congr f hf rest _ _ hun.1 hun.2.2
    simp only [move_gen_loop]
    omega

/-- With both caches dirty, the node count computed by `move_gen` depends
only on the board, the constraint and the turn. -/
theorem move_gen_congr : ∀ (d : Nat) (x y : Bitboard), x.board = y.board →
    x.valid_field = y.valid_field → x.turn = y.turn →
    x.cached_meta_field_dirty = true → x.cached_game_over_dirty = true →
    y.cached_meta_field_dirty = true → y.cached_game_over_dirty = true →
    move_gen x d = move_gen y d := by
  intro d
  induction d with
  | zero =>
    intro x y hb hv ht xm xg ym yg
    have hval := game_over_val_congr hb xm xg ym yg
    rcases Bool.eq_false_or_eq_true (x.game_over).1 with hx | hx
    · rw [move_gen_over hx 0, move_gen_over (by rw [← hval]; exact hx) 0]
    · have hy : (y.game_over).1 = false := by rw [← hval]; exact hx
      rw [move_gen_zero hx, move_gen_zero hy,
        get_all_moves_congr ((game_over_snd x).1.trans (hb.trans (game_over_snd y).1.symm))
          ((game_over_snd x).2.1.trans (hv.trans (game_over_snd y).2.1.symm))]
  | succ d ih =>
    intro x y hb hv ht xm xg ym yg
    have hval := game_over_val_congr hb xm xg ym yg
    rcases Bool.eq_false_or_eq_true (x.game_over).1 with hx | hx
    · rw [move_gen_over hx (d + 1), move_gen_over (by rw [← hval]; exact hx) (d + 1)]
    · have hy : (y.game_over).1 = false := by rw [← hval]; exact hx
      have hmoves : (x.game_over).2.get_all_moves = (y.game_over).2.get_all_moves :=
        get_all_moves_congr ((game_over_snd x).1.trans (hb.trans (game_over_snd y).1.symm))
          ((game_over_snd x).2.1.trans (hv.trans (game_over_snd y).2.1.symm))
      have hloop := move_gen_loop_congr (fun z => move_gen z d)
        (fun a a' h1 h2 h3 h4 h5 h6 h7 => ih a a' h1 h2 h3 h4 h5 h6 h7)
        ((y.game_over).2.get_all_moves) (x.game_over).2 (y.game_over).2
        ((game_over_snd x).1.trans (hb.trans (game_over_snd y).1.symm))
        ((game_over_snd x).2.2.trans (ht.trans (game_over_snd y).2.2.symm))
      rw [move_gen_succ hx d, move_gen_succ hy d, hmoves, hloop]



/-- Clearing the just-set bit through the 64-bit complement restores the
entry, for any 64-bit value. -/
theorem clear_restores_general {x s : Nat} (hx : x < 2 ^ 64) (hs : s < 64)
    (hempty : x &&& (1 <<< s) = 0) :
    (x ||| (1 <<< s)) &&& ((2 ^ 64 - 1) ^^^ (1 <<< s)) = x := by
  have hxs : x.testBit s = false := by
    have := land_eq_zero_iff.mp hempty s
    rw [Nat.one_shiftLeft, Nat.testBit_two_pow_self] at this
    simpa using this
  apply Nat.eq_of_testBit_eq
  intro j
  rw [Nat.testBit_land, Nat.testBit_lor, Nat.testBit_xor, Nat.one_shiftLeft,
    Nat.testBit_two_pow, Nat.testBit_two_pow_sub_one]
  by_cases hj64 : j < 64
  · by_cases hjs : s = j
    · subst hjs
      simp [hxs, hj64]
    · simp [hjs, hj64]
  · have hxj : x.testBit j = false :=
      Nat.testBit_eq_false_of_lt (lt_of_lt_of_le hx (Nat.pow_le_pow_right (by omega) (by omega)))
    have hsj : s ≠ j := by omega
    simp [hxj, hsj, hj64]

/-- The make/undo pair of `move_gen`'s loop restores board and turn of any
well-shaped state carrying the same board as a state that generated the move. -/
theorem undo_make_board_turn {a : Bitboard} {mov s i : Nat} (hs : s < 9) (hi : i < 9)
    (hsq : square_of mov = 1 <<< s) (hfd : field_of mov = 1 <<< i)
    (h0 : a.board.length = 2) (hrow : (a.board.getD a.turn []).length = 9)
    (ht : a.turn ≤ 1) (hempty : a.bd a.turn i &&& (1 <<< s) = 0)
    (hlt : a.bd a.turn i < 2 ^ 64) :
    ((a.make_move mov).undo_move mov).board = a.board
      ∧ ((a.make_move mov).undo_move mov).turn = a.turn := by
  constructor
  · simp only [Bitboard.undo_move, Bitboard.make_move, Bitboard.clearBit, Bitboard.setBit,
      Bitboard.bd, hsq, hfd, to_index_pow s hs, to_index_pow i hi]
    have hp2 : 1 - (1 - a.turn) = a.turn := by omega
    rw [hp2]
    have hBget : (a.board.set a.turn ((a.board.getD a.turn []).set i
        (((a.board.getD a.turn []).getD i 0) ||| (1 <<< s)))).getD a.turn []
        = (a.board.getD a.turn []).set i (((a.board.getD a.turn []).getD i 0) ||| (1 <<< s)) :=
      getD_set_self (by omega) _ _
    rw [hBget, getD_set_self (by omega) _ _,
      @clear_restores_general ((a.board.getD a.turn []).getD i 0) s hlt (by omega) hempty,
      List.set_set, List.set_set, set_getD_eq_self (by omega) 0,
      set_getD_eq_self (by omega) ([] : List Nat)]
  · show 1 - (1 - a.turn) = a.turn
    omega

theorem sum_map_one_add (f : Nat → Nat) : ∀ ms : List Nat,
    (ms.map (fun m => 1 + f m)).sum = ms.length + (ms.map f).sum
  | [] => rfl
  | m :: rest => by
    simp only [List.map_cons, List.sum_cons, List.length_cons, sum_map_one_add f rest]
    omega

/-- The loop of `move_gen` sums, in list order, the recursive counts of the
positions reached by each generated move, no matter how the threaded state's
constraint word drifts. -/
theorem move_gen_loop_sum (d : Nat) {b : Bitboard} (hwf : WF b) :
    ∀ (ms : List Nat) (a : Bitboard), a.board = b.board → a.turn = b.turn →
      (∀ m ∈ ms, m ∈ b.get_all_moves) →
      (move_gen_loop (fun x => move_gen x d) a ms).1
        = (ms.map (fun mov => move_gen (b.make_move mov) d)).sum
  | [], a, _, _, _ => rfl
  | m :: rest, a, hb, ht, hsub => by
    have hmem : m ∈ b.get_all_moves := hsub m (List.mem_cons_self m rest)
    obtain ⟨i, hi, s, hs, hmov, hbit, hempty, hblk⟩ := mem_decomp hmem
    have hdec : square_of m = 1 <<< s ∧ field_of m = 1 <<< i := by
      rcases Bool.eq_false_or_eq_true (b.valid_field == 0o777) with h7 | h7
      · have hm2 : m = (1 <<< s) ||| ((1 <<< i) <<< 16) ||| ALL_FIELDS_LEGAL := by
          rw [hmov, h7]
          simp
        rw [hm2]
        exact ⟨(decode_tagged s hs i hi).1, (decode_tagged s hs i hi).2.1⟩
      · have hm2 : m = (1 <<< s) ||| ((1 <<< i) <<< 16) := by
          rw [hmov, h7]
          simp
        rw [hm2]
        exact ⟨(decode_plain s hs i hi).1, (decode_plain s hs i hi).2.1⟩
    have htb : b.turn < 2 := by have := hwf.turn_le; omega
    have hrowb : (b.board.getD b.turn []).length = 9 :=
      hwf.shape1 _ (row_mem hwf.shape0 htb)
    have hrowa : (a.board.getD a.turn []).length = 9 := by
      rw [hb, ht]
      exact hrowb
    have hta : a.turn ≤ 1 := by
      rw [ht]
      exact hwf.turn_le
    have h0a : a.board.length = 2 := by
      rw [hb]
      exact hwf.shape0
    have hemptyb : b.bd b.turn i &&& (1 <<< s) = 0 := by
      rcases Nat.le_one_iff_eq_zero_or_eq_one.mp hwf.turn_le with h | h <;> rw [h]
      · exact land_eq_zero_of_lor_left hempty
      · exact land_eq_zero_of_lor_right hempty
    have hemptya : a.bd a.turn i &&& (1 <<< s) = 0 := by
      simp only [Bitboard.bd, hb, ht]
      exact hemptyb
    have hlta : a.bd a.turn i < 2 ^ 64 := by
      simp only [Bitboard.bd, hb, ht]
      exact hwf.lt64 b.turn htb i hi
    have hrt := undo_make_board_turn hs hi hdec.1 hdec.2 h0a hrowa hta hemptya hlta
    have hmk := make_move_congr hb ht m
    have hhead : move_gen (a.make_move m) d = move_gen (b.make_move m) d :=
      move_gen_congr d _ _ hmk.1 hmk.2.1 hmk.2.2 rfl rfl rfl rfl
    have htail := move_gen_loop_sum d hwf rest ((a.make_move m).undo_move m)
      (hrt.1.trans hb) (hrt.2.trans ht) (fun x hx => hsub x (List.mem_cons_of_mem m hx))
    simp only [move_gen_loop, List.map_cons, List.sum_cons]
    omega


/-- `get_all_moves` enumerates in sub-board-index ascending, then
cell-index ascending order. -/
theorem get_all_moves_sorted (b : Bitboard) :
    List.Pairwise (fun m m' =>
      to_index (field_of m) < to_index (field_of m')
        ∨ (to_index (field_of m) = to_index (field_of m')
            ∧ to_index (square_of m) < to_index (square_of m'))) b.get_all_moves := by
  have hdec : ∀ i, i < 9 → ∀ s, s < 9 →
      to_index (field_of (((1 <<< s) ||| ((1 <<< i) <<< 16))
          ||| (if b.valid_field == 0o777 then ALL_FIELDS_LEGAL else 0))) = i
        ∧ to_index (square_of (((1 <<< s) ||| ((1 <<< i) <<< 16))
          ||| (if b.valid_field == 0o777 then ALL_FIELDS_LEGAL else 0))) = s := by
    intro i hi s hs
    rcases Bool.eq_false_or_eq_true (b.valid_field == 0o777) with h7 | h7
    · rw [show (((1 <<< s) ||| ((1 <<< i) <<< 16))
          ||| (if b.valid_field == 0o777 then ALL_FIELDS_LEGAL else 0))
          = (1 <<< s) ||| ((1 <<< i) <<< 16) ||| ALL_FIELDS_LEGAL from by rw [h7]; simp]
      rw [(decode_tagged s hs i hi).1, (decode_tagged s hs i hi).2.1]
      exact ⟨to_index_pow i hi, to_index_pow s hs⟩
    · rw [show (((1 <<< s) ||| ((1 <<< i) <<< 16))
          ||| (if b.valid_field == 0o777 then ALL_FIELDS_LEGAL else 0))
          = (1 <<< s) ||| ((1 <<< i) <<< 16) from by rw [h7]; simp]
      rw [(decode_plain s hs i hi).1, (decode_plain s hs i hi).2.1]
      exact ⟨to_index_pow i hi, to_index_pow s hs⟩
  simp only [Bitboard.get_all_moves]
  rw [List.flatMap_def, List.pairwise_flatten]
  constructor
  · intro l hl
    rw [List.mem_map] at hl
    obtain ⟨i, hil, rfl⟩ := hl
    rw [List.mem_range] at hil
    split
    case isTrue hc =>
      rw [List.pairwise_filterMap]
      refine List.Pairwise.imp_of_mem ?_ (List.pairwise_lt_range 9)
      intro s s' hsmem hsmem' hss m hm m' hm'
      rw [List.mem_range] at hsmem hsmem'
      split at hm
      case isFalse => exact absurd hm (Option.not_mem_none m)
      case isTrue =>
        split at hm'
        case isFalse => exact absurd hm' (Option.not_mem_none m')
        case isTrue =>
          rw [Option.mem_some_iff] at hm hm'
          subst hm hm'
          right
          rw [(hdec i hil s hsmem).1, (hdec i hil s hsmem).2,
            (hdec i hil s' hsmem').1, (hdec i hil s' hsmem').2]
          exact ⟨rfl, hss⟩
    case isFalse => exact List.Pairwise.nil
  · rw [List.pairwise_map]
    refine List.Pairwise.imp_of_mem ?_ (List.pairwise_lt_range 9)
    intro i i' himem himem' hii m hm m' hm'
    rw [List.mem_range] at himem himem'
    split at hm
    case isFalse => exact absurd hm (List.not_mem_nil m)
    case isTrue =>
      split at hm'
      case isFalse => exact absurd hm' (List.not_mem_nil m')
      case isTrue =>
        rw [List.mem_filterMap] at hm hm'
        obtain ⟨s, hsr, hsome⟩ := hm
        obtain ⟨s', hsr', hsome'⟩ := hm'
        rw [List.mem_range] at hsr hsr'
        split at hsome
        case isFalse => exact absurd hsome (by simp)
        case isTrue =>
          split at hsome'
          case isFalse => exact absurd hsome' (by simp)
          case isTrue =>
            have hm2 := (Option.some_injective _ hsome).symm
            have hm2' := (Option.some_injective _ hsome').symm
            subst hm2 hm2'
            left
            rw [(hdec i himem s hsr).1, (hdec i' himem' s' hsr').1]
            exact hii

/-- C5: the enumerator's defining equations.  `move_gen` returns 0 when
`game_over()` holds; otherwise at depth 0 it returns the number of generated
moves, and at depth `d+1` it returns the sum, over the generated moves in
list order (sub-board index ascending, then cell index ascending), of 1 plus
the enumerator's value on the post-move position at depth `d`, each move
being undone before the next sibling is tried. -/
theorem c5_enumerator_recursion (b : Bitboard) (hwf : WF b) :
    (∀ d, (b.game_over).1 = true → move_gen b d = 0)
      ∧ ((b.game_over).1 = false → move_gen b 0 = b.get_all_moves.length)
      ∧ (∀ d, (b.game_over).1 = false →
          move_gen b (d + 1)
            = (b.get_all_moves.map (fun mov => 1 + move_gen (b.make_move mov) d)).sum)
      ∧ List.Pairwise (fun m m' =>
          to_index (field_of m) < to_index (field_of m')
            ∨ (to_index (field_of m) = to_index (field_of m')
                ∧ to_index (square_of m) < to_index (square_of m'))) b.get_all_moves := by
  have hmv : (b.game_over).2.get_all_moves = b.get_all_moves :=
    get_all_moves_congr (game_over_snd b).1 (game_over_snd b).2.1
  refine ⟨fun d h => move_gen_over h d, fun h => by rw [move_gen_zero h, hmv],
    fun d h => ?_, get_all_moves_sorted b⟩
  rw [move_gen_succ h d, hmv, sum_map_one_add]
  have hsum := move_gen_loop_sum d hwf b.get_all_moves (b.game_over).2
    (game_over_snd b).1 (game_over_snd b).2.2 (fun m hm => hm)
  omega

/-- Witness for C5: the depth-successor equation evaluated on the initial
board at depth 1. -/
theorem c5_witness :
    move_gen Bitboard.default 1
      = (Bitboard.default.get_all_moves.map
          (fun mov => 1 + move_gen (Bitboard.default.make_move mov) 0)).sum :=
  (c5_enumerator_recursion Bitboard.default
      (by refine ⟨?_, ?_, ?_, ?_⟩ <;> decide)).2.2.1 0 (by decide)


end UTTT
